import Mathlib

/-!
A shallow embedding of the two scripts of this repository:
`src/json2csv.py` (the chunk packer `convert_to_csv`) and
`src/query_all.py` (the cursor-pagination fetch loop and the API-key
format check), with theorems settling the specification claims.
-/

namespace Omnivore

/-- A record as fetched from the API: an insertion-ordered mapping of
string keys to string values (in this domain the keys are `url` and `id`). -/
abbrev Node := List (String × String)

/-- The sixteen lowercase hexadecimal digit characters. -/
def hexDigits : List Char := "0123456789abcdef".data

/-- Lowercase hexadecimal digit character, as Python emits in a `\uXXXX` escape. -/
def hexChar (n : Nat) : Char :=
  if h : n < hexDigits.length then hexDigits.get ⟨n, h⟩ else '0'

/-- The four hex digits of a `\uXXXX` escape of Python's `json.dumps`. -/
def hex4 (n : Nat) : List Char :=
  [hexChar (n / 4096 % 16), hexChar (n / 256 % 16), hexChar (n / 16 % 16), hexChar (n % 16)]

/-- Escaping of one character inside a JSON string literal, following
Python's `json.dumps` with its default `ensure_ascii=True`: the two-character
escapes for quote, backslash and the common control characters, `\uXXXX`
(with a surrogate pair above the BMP) for other control and all non-ASCII
characters, and the character itself otherwise. -/
def escChar (c : Char) : List Char :=
  if c = '"' then ['\\', '"']
  else if c = '\\' then ['\\', '\\']
  else if c = '\n' then ['\\', 'n']
  else if c = '\t' then ['\\', 't']
  else if c = '\r' then ['\\', 'r']
  else if c.toNat = 8 then ['\\', 'b']
  else if c.toNat = 12 then ['\\', 'f']
  else if c.toNat < 32 ∨ 126 < c.toNat then
    if c.toNat < 65536 then '\\' :: 'u' :: hex4 c.toNat
    else
      ('\\' :: 'u' :: hex4 (55296 + (c.toNat - 65536) / 1024)) ++
        ('\\' :: 'u' :: hex4 (56320 + (c.toNat - 65536) % 1024))
  else [c]

/-- The characters of a JSON string literal body for `s`. -/
def escStr (s : String) : List Char := (s.data.map escChar).flatten

/-- One `"key": "value"` member, as serialized by `json.dumps` with its
default separators (`": "` between key and value). -/
def dumpPair (p : String × String) : List Char :=
  '"' :: escStr p.1 ++ '"' :: ':' :: ' ' :: '"' :: escStr p.2 ++ ['"']

/-- `json.dumps(node)` for a record: the members in insertion order joined
by `", "`, wrapped in braces. -/
def dumpsL (r : Node) : List Char :=
  '{' :: List.intercalate [',', ' '] (r.map dumpPair) ++ ['}']

/-- Python `str.replace(' ', '')`: drop every space character. -/
def removeSpaces (s : List Char) : List Char := s.filter (fun c => c != ' ')

/-- Python `str.replace('"', '""')`: double every literal double quote. -/
def doubleQuotes (s : List Char) : List Char :=
  (s.map (fun c => if c = '"' then ['"', '"'] else [c])).flatten

/-- The escaping `json2csv.py` applies to a closed cell before appending it
to `csv_lines`: `current_line.replace(' ', '').replace('"', '""')`. -/
def escapeCell (s : List Char) : List Char := doubleQuotes (removeSpaces s)

/-- The body of `convert_to_csv`'s loop over `data`, together with the final
`if current_line:` close. Arguments after the node list mirror the Python
locals `csv_lines`, `current_line` and `current_length`; the result is the
final `csv_lines`. -/
def convertLoop (limit : Nat) : List Node → List (List Char) → List Char → Nat → List (List Char)
  | [], csv_lines, current_line, _ =>
      if current_line = [] then csv_lines else csv_lines ++ [escapeCell current_line]
  | node :: rest, csv_lines, current_line, current_length =>
      let node_str := dumpsL node
      if limit < current_length + node_str.length then
        convertLoop limit rest (csv_lines ++ [escapeCell current_line]) node_str node_str.length
      else
        convertLoop limit rest csv_lines
          (if current_line = [] then node_str else current_line ++ ',' :: node_str)
          (current_length + node_str.length)

/-- The list `csv_lines` computed by `convert_to_csv(data, length_limit)`:
the escaped cells, in order. -/
def csvCells (data : List Node) (length_limit : Nat) : List (List Char) :=
  convertLoop length_limit data [] [] 0

/-- `convert_to_csv(data, length_limit)`:
`'"' + '","'.join(csv_lines) + '"'`. -/
def convert_to_csv (data : List Node) (length_limit : Nat) : String :=
  ⟨'"' :: List.intercalate ['"', ',', '"'] (csvCells data length_limit) ++ ['"']⟩

/-! ### Analysis helpers for the packer

`packGroups` replays exactly the grouping decisions of `convertLoop`, but
keeps each cell as the list of serialized records it holds instead of a
joined string, so that per-record lengths remain visible; the bridge lemma
below proves it produces the same cells. -/

/-- The grouping decisions of `convert_to_csv`'s loop, at record granularity:
same branch condition (`current_length` is the sum of the group's record
lengths, with no separator counted), same closes. -/
def packGroups (limit : Nat) : List (List Char) → List (List (List Char)) → List (List Char) → Nat → List (List (List Char))
  | [], closed, group, _ => if group = [] then closed else closed ++ [group]
  | s :: rest, closed, group, len =>
    if limit < len + s.length then packGroups limit rest (closed ++ [group]) [s] s.length
    else packGroups limit rest closed (group ++ [s]) (len + s.length)

/-- The cells of `convert_to_csv(data, length_limit)` as groups of
serialized records. -/
def groupsOf (data : List Node) (length_limit : Nat) : List (List (List Char)) :=
  packGroups length_limit (data.map dumpsL) [] [] 0

/-- The pre-escaping content of the cells of `convert_to_csv`: each cell's
records joined by `,`, before `replace(' ', '')` and `replace('"', '""')`
are applied. -/
def rawCells (data : List Node) (length_limit : Nat) : List (List Char) :=
  (groupsOf data length_limit).map (List.intercalate [','])

/-- Undo the quote doubling of a cell: halve every run of two double quotes. -/
def halveQuotes : List Char → List Char
  | [] => []
  | [c] => [c]
  | c :: c2 :: rest =>
    if c = '"' ∧ c2 = '"' then '"' :: halveQuotes rest
    else c :: halveQuotes (c2 :: rest)

/-- Scanner state for splitting a JSON-records string at top level: the
current brace depth, whether the scanner is inside a string literal, and
whether the previous character was an unconsumed backslash escape. -/
structure ScanSt where
  depth : Nat
  inStr : Bool
  esc : Bool
deriving DecidableEq

/-- The scanner state at the start of the content. -/
def neutralSt : ScanSt := { depth := 0, inStr := false, esc := false }

/-- One scanner step; `none` means the character is a comma at top level,
i.e. a split point. -/
def scanStep (st : ScanSt) (c : Char) : Option ScanSt :=
  if st.esc then some { st with esc := false }
  else if st.inStr then
    if c = '\\' then some { st with esc := true }
    else if c = '"' then some { st with inStr := false }
    else some st
  else if c = '"' then some { st with inStr := true }
  else if c = '{' then some { st with depth := st.depth + 1 }
  else if c = '}' then some { st with depth := st.depth - 1 }
  else if c = ',' ∧ st.depth = 0 then none
  else some st

/-- Run the scanner over a list of characters; `none` when a top-level comma
occurs somewhere inside. -/
def scanChars : ScanSt → List Char → Option ScanSt
  | st, [] => some st
  | st, c :: cs =>
    match scanStep st c with
    | some st2 => scanChars st2 cs
    | none => none

/-- Splitting on top-level commas: accumulate the current token, and close
it at each top-level comma. -/
def splitGo : ScanSt → List Char → List (List Char) → List Char → List (List Char)
  | _, cur, acc, [] => acc ++ [cur]
  | st, cur, acc, c :: cs =>
    match scanStep st c with
    | some st2 => splitGo st2 (cur ++ [c]) acc cs
    | none => splitGo st [] (acc ++ [cur]) cs

/-- Split a string on the commas that lie at top level: outside every brace
pair and outside every string literal. -/
def splitTopLevel (cs : List Char) : List (List Char) := splitGo neutralSt [] [] cs

/-! ### The fetch loop of `query_all.py` -/

/-- One edge of a `SearchSuccess` payload: `{cursor, node: {url, id}}`. -/
structure Edge where
  cursor : String
  node : Node
deriving DecidableEq

/-- The `pageInfo` object of a `SearchSuccess` payload. -/
structure PageInfoData where
  hasNextPage : Bool
  totalCount : Nat
deriving DecidableEq

/-- The dictionary `data = response.json().get("data", {}).get("search", {})`.
A field is `none` when the corresponding key is absent (for instance both are
absent for an error-code payload, and `edges` is absent when `.get` fell back
to `{}`). -/
structure SearchData where
  edges : Option (List Edge)
  pageInfo : Option PageInfoData
deriving DecidableEq

/-- Outcome of `make_request` plus `response.raise_for_status()` and
`response.json()`: either an exception before any field of the payload is
read (connection error, timeout, HTTP error status, request exception), or a
parsed payload. -/
inductive ReqOutcome where
  | transportError
  | success (d : SearchData)
deriving DecidableEq

/-- The loop state of `query_all.py`: the module-level variables mutated by
the pagination loop. `total_count` is `none` while the Python variable
`total_count` has never been assigned (it is first assigned on the first
fully successful iteration), since the `finally:` progress print raises
`NameError` when it is still unbound. -/
structure FetchState where
  after_cursor : Option String
  has_next_page : Bool
  nodes : List Node
  total_count : Option Nat
deriving DecidableEq

/-- The variables as initialized before the loop. -/
def initialState : FetchState :=
  { after_cursor := none, has_next_page := true, nodes := [], total_count := none }

/-- The `try`/`except` part of one iteration of the pagination loop: the
state after the body has run and any exception has been caught and printed.
Mirrors lines 127-151 of `query_all.py`:
on `"edges" in data` with a non-empty list, every `edge["node"]` is appended
and `after_cursor` becomes the last edge's cursor; with an empty list,
`data["edges"][-1]` raises `IndexError` before any assignment, so the state
is unchanged; reading `data["pageInfo"]` raises `KeyError` when absent,
leaving `has_next_page` and `total_count` unchanged. -/
def runIteration (s : FetchState) (r : ReqOutcome) : FetchState :=
  match r with
  | .transportError => s
  | .success d =>
    match d.edges with
    | some [] => s
    | some (e :: es) =>
      let s1 : FetchState :=
        { s with
          nodes := s.nodes ++ (e :: es).map Edge.node,
          after_cursor := some ((e :: es).getLast (by simp)).cursor }
      match d.pageInfo with
      | some pi => { s1 with has_next_page := pi.hasNextPage, total_count := some pi.totalCount }
      | none => s1
    | none =>
      match d.pageInfo with
      | some pi => { s with has_next_page := pi.hasNextPage, total_count := some pi.totalCount }
      | none => s

/-- The fatal error that can escape one iteration. -/
inductive RunError where
  | nameErrorTotalCount
deriving DecidableEq

/-- One full iteration including the `finally:` block, whose progress print
evaluates `total_count`: if that variable has never been assigned, the print
raises `NameError`, which no handler catches, so it terminates the program. -/
def stepFinally (s : FetchState) (r : ReqOutcome) : Except RunError FetchState :=
  let s1 := runIteration s r
  match s1.total_count with
  | some _ => .ok s1
  | none => .error .nameErrorTotalCount

/-- The `while has_next_page:` loop, run against a finite prefix of request
outcomes (one outcome consumed per iteration). Returns the state when the
guard becomes false or the outcomes are exhausted, or the fatal error. -/
def runFetch : FetchState → List ReqOutcome → Except RunError FetchState
  | s, [] => .ok s
  | s, r :: rs =>
    if s.has_next_page then
      match stepFinally s r with
      | .ok s1 => runFetch s1 rs
      | .error e => .error e
    else .ok s

/-! ### The API-key format check of `query_all.py` -/

/-- The character class `[0-9A-Fa-f]` of the API-key regular expression. -/
def isHexDigitAscii (c : Char) : Bool :=
  ('0' ≤ c ∧ c ≤ '9') ∨ ('A' ≤ c ∧ c ≤ 'F') ∨ ('a' ≤ c ∧ c ≤ 'f')

/-- Match a character class exactly `n` times, returning the rest of the
input (the `[...]{n}` pieces of the pattern). -/
def matchRun (p : Char → Bool) : Nat → List Char → Option (List Char)
  | 0, cs => some cs
  | _ + 1, [] => none
  | n + 1, c :: cs => if p c then matchRun p n cs else none

/-- Match one literal character (the `-` pieces of the pattern). -/
def matchChar (a : Char) : List Char → Option (List Char)
  | [] => none
  | c :: cs => if c = a then some cs else none

/-- Python's `$` outside MULTILINE mode: it matches at the end of the string,
and also just before a newline at the end of the string. -/
def dollarMatches (cs : List Char) : Bool := cs = [] ∨ cs = ['\n']

/-- The input remaining after the body of
`^[0-9A-Fa-f]{8}-[0-9A-Fa-f]{4}-[0-9A-Fa-f]{4}-[0-9A-Fa-f]{4}-[0-9A-Fa-f]{12}`
has matched a prefix (each repetition is an exact count, so matching is
deterministic and needs no backtracking). -/
def apikeyTail (cs : List Char) : Option (List Char) :=
  (((((((((matchRun isHexDigitAscii 8 cs).bind (matchChar '-')).bind
    (matchRun isHexDigitAscii 4)).bind (matchChar '-')).bind
    (matchRun isHexDigitAscii 4)).bind (matchChar '-')).bind
    (matchRun isHexDigitAscii 4)).bind (matchChar '-')).bind
    (matchRun isHexDigitAscii 12))

/-- `has_valid_api_key_format`: `apikey_pattern.match(api_key)` is not `None`,
where the pattern is anchored by `^` (also implied by `re.match`) and ends
with `$`. -/
def has_valid_api_key_format (api_key : String) : Bool :=
  match apikeyTail api_key.data with
  | some rest => dollarMatches rest
  | none => false

/-- A run of exactly `n` hexadecimal digits (spec wording: one hex group of
the 8-4-4-4-12 shape). -/
def hexGroup (n : Nat) (g : List Char) : Prop :=
  g.length = n ∧ ∀ c ∈ g, isHexDigitAscii c = true

/-- The spec's characterization of a valid key: a 36-character hyphenated
hexadecimal token of shape 8-4-4-4-12. -/
def uuidShape (cs : List Char) : Prop :=
  ∃ a b c d e : List Char,
    hexGroup 8 a ∧ hexGroup 4 b ∧ hexGroup 4 c ∧ hexGroup 4 d ∧ hexGroup 12 e ∧
    cs = a ++ '-' :: b ++ '-' :: c ++ '-' :: d ++ '-' :: e

/-! ### Theorems about the fetch loop -/

/-- A successful response whose `edges` list is present but empty changes
nothing: the `for` loop appends no node, and `data["edges"][-1]` raises
`IndexError` before any assignment, which the generic handler swallows. -/
theorem runIteration_empty_edges (s : FetchState) (pi : Option PageInfoData) :
    runIteration s (.success { edges := some [], pageInfo := pi }) = s := rfl

/-- Claim C2 (code bug): a successful page response with `hasNextPage: true`
but an empty `edges` list does NOT end the run. The iteration raises
`IndexError` at `data["edges"][-1]`, the exception is caught and printed,
`has_next_page` is never reassigned, and the loop retries the same cursor;
if the same empty-edges response recurs on every retry, any number `n` of
further iterations leaves the state unchanged and still fetching, so the
loop never transitions to DONE. -/
theorem empty_edges_loop_stuck (n : Nat) (s : FetchState) (pi : Option PageInfoData)
    (h1 : s.has_next_page = true) (h2 : s.total_count ≠ none) :
    runFetch s (List.replicate n (.success { edges := some [], pageInfo := pi })) = .ok s := by
  induction n with
  | zero => rfl
  | succ n ih =>
    have hstep : stepFinally s (.success { edges := some [], pageInfo := pi }) = .ok s := by
      unfold stepFinally
      rw [runIteration_empty_edges]
      cases ht : s.total_count with
      | none => exact absurd ht h2
      | some t => simp only [ht]
    rw [List.replicate_succ]
    simp only [runFetch, h1, if_true, hstep]
    exact ih

/-- Witness for `empty_edges_loop_stuck` at a concrete state after one
successful page, with three recurring empty-edges responses. -/
theorem empty_edges_loop_stuck_witness :
    runFetch { after_cursor := some "abc", has_next_page := true, nodes := [], total_count := some 5 }
      (List.replicate 3 (.success { edges := some [], pageInfo := some { hasNextPage := true, totalCount := 5 } }))
      = .ok { after_cursor := some "abc", has_next_page := true, nodes := [], total_count := some 5 } :=
  empty_edges_loop_stuck 3 _ _ rfl (by simp)

/-- Claim C3 (code bug): a transport-level failure on the very first
iteration IS fatal. The `except` handler prints the error, but the
`finally:` progress print then evaluates `total_count`, which has never been
assigned, so `NameError` propagates and terminates the program, whatever
outcomes would have followed. -/
theorem first_iteration_failure_crashes (rs : List ReqOutcome) :
    runFetch initialState (.transportError :: rs) = .error .nameErrorTotalCount := rfl

/-- Claim C6 counterexample: a successful response with no `edges` field and
no `pageInfo` (an error-code payload) does not transition the loop to DONE:
reading `data["pageInfo"]` raises `KeyError`, the handler swallows it, and
the state — in particular `has_next_page = true` — is unchanged, so the loop
retries instead of ending. -/
theorem missing_edges_counterexample :
    runIteration { after_cursor := some "c1", has_next_page := true, nodes := [], total_count := some 7 }
        (.success { edges := none, pageInfo := none })
      = { after_cursor := some "c1", has_next_page := true, nodes := [], total_count := some 7 } ∧
    ({ after_cursor := some "c1", has_next_page := true, nodes := [], total_count := some 7 } : FetchState).has_next_page = true :=
  ⟨rfl, rfl⟩

/-- Claim C6 as amended: a successful response with no `edges` field leaves
the node list and the cursor unchanged, and the loop transitions to DONE
only when the payload carries a `pageInfo` with `hasNextPage = false`; when
`pageInfo` is absent (e.g. an error-code payload) the `KeyError` is caught
and `has_next_page` keeps its previous value, so the loop retries. -/
theorem missing_edges_amended (s : FetchState) (d : SearchData) (h : d.edges = none) :
    (runIteration s (.success d)).nodes = s.nodes ∧
    (runIteration s (.success d)).after_cursor = s.after_cursor ∧
    (runIteration s (.success d)).has_next_page =
      (match d.pageInfo with
       | some pi => pi.hasNextPage
       | none => s.has_next_page) := by
  obtain ⟨e, p⟩ := d
  simp only at h
  subst h
  cases p <;> simp [runIteration]

/-- Witness for `missing_edges_amended` at a concrete state and payload. -/
theorem missing_edges_amended_witness :
    (runIteration initialState (.success { edges := none, pageInfo := some { hasNextPage := false, totalCount := 3 } })).nodes = initialState.nodes ∧
    (runIteration initialState (.success { edges := none, pageInfo := some { hasNextPage := false, totalCount := 3 } })).after_cursor = initialState.after_cursor ∧
    (runIteration initialState (.success { edges := none, pageInfo := some { hasNextPage := false, totalCount := 3 } })).has_next_page =
      (match (some { hasNextPage := false, totalCount := 3 } : Option PageInfoData) with
       | some pi => pi.hasNextPage
       | none => initialState.has_next_page) :=
  missing_edges_amended initialState { edges := none, pageInfo := some { hasNextPage := false, totalCount := 3 } } rfl

/-- Claim C7 (confirmed): on a successful response with a non-empty `edges`
list, every edge's `node` is appended to the accumulated list in edge order,
the previously accumulated nodes are kept unchanged as a prefix, and
`after_cursor` becomes the `cursor` of the last edge of the page — whether
or not `pageInfo` is present. -/
theorem edges_append_order_cursor (s : FetchState) (pi : Option PageInfoData) (e : Edge) (es : List Edge) :
    (runIteration s (.success { edges := some (e :: es), pageInfo := pi })).nodes
      = s.nodes ++ (e :: es).map Edge.node ∧
    (runIteration s (.success { edges := some (e :: es), pageInfo := pi })).after_cursor
      = some ((e :: es).getLast (List.cons_ne_nil e es)).cursor := by
  cases pi <;> simp [runIteration]

/-! ### Basic lemmas about the packer -/

theorem dumpsL_ne_nil (r : Node) : dumpsL r ≠ [] := by simp [dumpsL]

theorem ic_nil {α : Type} (sep : List α) : List.intercalate sep ([] : List (List α)) = [] := rfl

theorem ic_singleton {α : Type} (sep a : List α) : List.intercalate sep [a] = a := by
  simp [List.intercalate]

theorem ic_cons2 {α : Type} (sep a b : List α) (t : List (List α)) :
    List.intercalate sep (a :: b :: t) = a ++ sep ++ List.intercalate sep (b :: t) := by
  simp [List.intercalate, List.intersperse]

/-- With every member non-empty, the joined cell content is empty exactly
when the group is (the loop's `if current_line:` test at group level). -/
theorem ic_eq_nil_iff (g : List (List Char)) (hg : ∀ s ∈ g, s ≠ []) :
    List.intercalate [','] g = [] ↔ g = [] := by
  cases g with
  | nil => simp [ic_nil]
  | cons a t =>
    cases t with
    | nil =>
      rw [ic_singleton]
      simp only [List.cons_ne_nil, iff_false]
      exact hg a (List.mem_cons_self a [])
    | cons b t' =>
      rw [ic_cons2]
      simp

/-- Appending one more record to a group appends `,` plus the record to the
joined content, unless the group was empty. -/
theorem ic_snoc (g : List (List Char)) (s : List Char) :
    List.intercalate [','] (g ++ [s]) =
      if g = [] then s else List.intercalate [','] g ++ ',' :: s := by
  induction g with
  | nil => simp [ic_singleton]
  | cons a t ih =>
    cases t with
    | nil => simp [ic_cons2, ic_singleton]
    | cons b t' =>
      simp only [List.cons_append] at ih ⊢
      rw [ic_cons2, ih, if_neg (List.cons_ne_nil b t'), if_neg (List.cons_ne_nil a (b :: t')),
        ic_cons2]
      simp [List.append_assoc]

/-- The bridge between the source loop and its group-level replay: starting
from corresponding accumulators, `convertLoop` produces exactly the escaped
joined contents of the groups `packGroups` produces. -/
theorem convertLoop_eq_packGroups (limit : Nat) :
    ∀ (ds : List Node) (gs : List (List (List Char))) (g : List (List Char)) (len : Nat),
      (∀ s ∈ g, s ≠ []) →
      convertLoop limit ds (gs.map (fun h => escapeCell (List.intercalate [','] h)))
          (List.intercalate [','] g) len
        = (packGroups limit (ds.map dumpsL) gs g len).map
            (fun h => escapeCell (List.intercalate [','] h)) := by
  intro ds
  induction ds with
  | nil =>
    intro gs g len hg
    simp only [List.map_nil, convertLoop, packGroups]
    by_cases h : g = []
    · subst h
      simp [ic_nil]
    · rw [if_neg (fun hic => h ((ic_eq_nil_iff g hg).mp hic)), if_neg h]
      simp
  | cons d rest ih =>
    intro gs g len hg
    simp only [List.map_cons, convertLoop, packGroups]
    by_cases hov : limit < len + (dumpsL d).length
    · rw [if_pos hov, if_pos hov]
      have h2 := ih (gs ++ [g]) [dumpsL d] (dumpsL d).length
        (by intro s hs; rw [List.mem_singleton] at hs; subst hs; exact dumpsL_ne_nil d)
      rw [ic_singleton] at h2
      simpa [List.map_append] using h2
    · rw [if_neg hov, if_neg hov]
      have h2 := ih gs (g ++ [dumpsL d]) (len + (dumpsL d).length)
        (by intro s hs
            rcases List.mem_append.mp hs with hs | hs
            · exact hg s hs
            · rw [List.mem_singleton] at hs; subst hs; exact dumpsL_ne_nil d)
      rw [ic_snoc] at h2
      by_cases h : g = []
      · subst h
        simpa [ic_nil] using h2
      · rw [if_neg h] at h2
        rw [if_neg (fun hic => h ((ic_eq_nil_iff g hg).mp hic))]
        exact h2

/-- The cells of `convert_to_csv` are exactly the groups, joined by `,` and
escaped. -/
theorem csvCells_eq (data : List Node) (limit : Nat) :
    csvCells data limit
      = (groupsOf data limit).map (fun h => escapeCell (List.intercalate [','] h)) := by
  have h := convertLoop_eq_packGroups limit data [] [] 0 (by simp)
  simpa [csvCells, groupsOf, ic_nil] using h

/-- Invariant of the grouping fold: every closed group either has total
record length within the limit (measured without separators, as the source's
`current_length` measures it), or is a single oversized record. -/
theorem packGroups_bound (limit : Nat) :
    ∀ (ns : List (List Char)) (gs : List (List (List Char))) (g : List (List Char)) (len : Nat),
      (∀ h ∈ gs, (h.map List.length).sum ≤ limit ∨ ∃ s, h = [s] ∧ limit < s.length) →
      (g.map List.length).sum = len →
      ((g.map List.length).sum ≤ limit ∨ ∃ s, g = [s] ∧ limit < s.length) →
      ∀ h ∈ packGroups limit ns gs g len,
        (h.map List.length).sum ≤ limit ∨ ∃ s, h = [s] ∧ limit < s.length := by
  intro ns
  induction ns with
  | nil =>
    intro gs g len hgs hsum hP h hh
    simp only [packGroups] at hh
    by_cases hg : g = []
    · rw [if_pos hg] at hh
      exact hgs h hh
    · rw [if_neg hg] at hh
      rcases List.mem_append.mp hh with hh | hh
      · exact hgs h hh
      · rw [List.mem_singleton] at hh
        subst hh
        exact hP
  | cons s rest ih =>
    intro gs g len hgs hsum hP h hh
    simp only [packGroups] at hh
    by_cases hov : limit < len + s.length
    · rw [if_pos hov] at hh
      refine ih _ _ _ ?_ (by simp) ?_ h hh
      · intro h2 hh2
        rcases List.mem_append.mp hh2 with hh2 | hh2
        · exact hgs h2 hh2
        · rw [List.mem_singleton] at hh2
          subst hh2
          exact hP
      · rcases Nat.lt_or_ge limit s.length with hlt | hge
        · exact Or.inr ⟨s, rfl, hlt⟩
        · exact Or.inl (by simpa using hge)
    · rw [if_neg hov] at hh
      refine ih _ _ _ hgs ?_ ?_ h hh
      · simp [hsum]
      · exact Or.inl (by simp [hsum]; omega)

/-! ### The packer claims -/

/-- Claim C1 counterexample: with `length_limit = 4` and two records `{}`
(serialized length 2 each), `convert_to_csv` produces a single cell holding
both records whose pre-escaping comma-joined content has length 5 > 4, even
though neither record alone exceeds the limit: the loop's `current_length`
never counts the separator commas. -/
theorem cell_content_bound_counterexample :
    csvCells [[], []] 4
        = [escapeCell (List.intercalate [','] [dumpsL [], dumpsL []])] ∧
    groupsOf [[], []] 4 = [[dumpsL [], dumpsL []]] ∧
    (List.intercalate [','] [dumpsL [], dumpsL []]).length = 5 ∧
    (dumpsL ([] : Node)).length ≤ 4 :=
  ⟨by decide, by decide, by decide, by decide⟩

/-- Claim C1 as amended: the cells of `convert_to_csv` are, position by
position, the escaped comma-joins of the record groups `groupsOf` packs
(first conjunct — so the group `groupsOf` assigns to a cell holds exactly
that cell's records), and EVERY such group has total serialized record
length — the sum of the records' own lengths, not counting the separator
commas, which is the quantity the implementation's `current_length`
tracks — at most `length_limit`, except for a group holding a single record
that alone exceeds the limit (second conjunct). The comma-inclusive joined
length may exceed the limit by up to the number of separators, as the
counterexample shows. -/
theorem cell_content_bound_amended (data : List Node) (limit : Nat) :
    csvCells data limit
      = (groupsOf data limit).map (fun g => escapeCell (List.intercalate [','] g)) ∧
    ∀ g ∈ groupsOf data limit,
      (g.map List.length).sum ≤ limit ∨ ∃ s, g = [s] ∧ limit < s.length :=
  ⟨csvCells_eq data limit,
   fun g hg => packGroups_bound limit _ [] [] 0 (by simp) (by simp) (by simp) g hg⟩

/-- Witness for `cell_content_bound_amended` at the counterexample input:
there the single group holds two records of length 2 each, whose sum 4 meets
the limit 4 even though the joined cell content has length 5. -/
theorem cell_content_bound_amended_witness :
    (csvCells [[], []] 4
        = (groupsOf [[], []] 4).map (fun g => escapeCell (List.intercalate [','] g)) ∧
      ∀ g ∈ groupsOf [[], []] 4,
        (g.map List.length).sum ≤ 4 ∨ ∃ s, g = [s] ∧ 4 < s.length) ∧
    ((([dumpsL [], dumpsL []] : List (List Char)).map List.length).sum ≤ 4 ∨
      ∃ s, ([dumpsL [], dumpsL []] : List (List Char)) = [s] ∧ 4 < s.length) :=
  ⟨cell_content_bound_amended [[], []] 4,
   (cell_content_bound_amended [[], []] 4).2 [dumpsL [], dumpsL []] (by decide)⟩

/-- Claim C4 counterexample: on Scenario A's input the cell's literal double
quotes ARE doubled by `replace('"', '""')`, so the output differs from the
claimed string with undoubled quotes. (`\x7b`/`\x7d` denote the literal
brace characters.) -/
theorem scenario_a_counterexample :
    convert_to_csv [[("id", "1"), ("url", "http://a")], [("id", "2"), ("url", "http://b")]] 1000
      ≠ "\"\x7b\"id\":\"1\",\"url\":\"http://a\"\x7d,\x7b\"id\":\"2\",\"url\":\"http://b\"\x7d\"" := by
  decide

/-- Claim C4 as amended: on input `[{id:1,url:http://a},{id:2,url:http://b}]`
with `length_limit = 1000`, the output is a single cell, space-stripped and
with every double quote doubled. -/
theorem scenario_a_amended :
    convert_to_csv [[("id", "1"), ("url", "http://a")], [("id", "2"), ("url", "http://b")]] 1000
      = "\"\x7b\"\"id\"\":\"\"1\"\",\"\"url\"\":\"\"http://a\"\"\x7d,\x7b\"\"id\"\":\"\"2\"\",\"\"url\"\":\"\"http://b\"\"\x7d\"" := by
  decide

/-- Claim C5 counterexample: a single record whose serialized length 11
exceeds `length_limit = 5` yields TWO cells: the overflow branch first
closes the still-empty `current_line` as an empty cell, then the record's
own cell follows. -/
theorem oversized_first_record_counterexample :
    5 < (dumpsL [("id", "1")]).length ∧
    csvCells [[("id", "1")]] 5 = [[], escapeCell (dumpsL [("id", "1")])] ∧
    (csvCells [[("id", "1")]] 5).length = 2 :=
  ⟨by decide, by decide, by decide⟩

/-- Claim C5 as amended: packing an input consisting of one record whose
serialized length exceeds `length_limit` yields the record alone in its own
cell, but preceded by one spurious empty cell — the initially empty buffer
that the overflow branch closes unconditionally — so exactly two cells in
total. -/
theorem oversized_first_record_amended (r : Node) (limit : Nat)
    (h : limit < (dumpsL r).length) :
    csvCells [r] limit = [[], escapeCell (dumpsL r)] := by
  have h0 : limit < 0 + (dumpsL r).length := by simpa using h
  simp only [csvCells, convertLoop, h0, if_true]
  rw [if_neg (dumpsL_ne_nil r)]
  rfl

/-- Witness for `oversized_first_record_amended` at the counterexample
input. -/
theorem oversized_first_record_amended_witness :
    csvCells [[("id", "1")]] 5 = [[], escapeCell (dumpsL [("id", "1")])] :=
  oversized_first_record_amended [("id", "1")] 5 (by decide)

/-- Every member of the cell list produced by the loop is the escape of some
raw content, provided the accumulator's members already are. -/
theorem convertLoop_cells_escaped (limit : Nat) :
    ∀ (ds : List Node) (csv : List (List Char)) (cur : List Char) (len : Nat),
      (∀ c ∈ csv, ∃ raw, c = escapeCell raw) →
      ∀ c ∈ convertLoop limit ds csv cur len, ∃ raw, c = escapeCell raw := by
  intro ds
  induction ds with
  | nil =>
    intro csv cur len hcsv c hc
    simp only [convertLoop] at hc
    by_cases h : cur = []
    · rw [if_pos h] at hc
      exact hcsv c hc
    · rw [if_neg h] at hc
      rcases List.mem_append.mp hc with hc | hc
      · exact hcsv c hc
      · rw [List.mem_singleton] at hc
        exact ⟨cur, hc⟩
  | cons d rest ih =>
    intro csv cur len hcsv c hc
    simp only [convertLoop] at hc
    by_cases hov : limit < len + (dumpsL d).length
    · rw [if_pos hov] at hc
      refine ih _ _ _ ?_ c hc
      intro c2 hc2
      rcases List.mem_append.mp hc2 with hc2 | hc2
      · exact hcsv c2 hc2
      · rw [List.mem_singleton] at hc2
        exact ⟨cur, hc2⟩
    · rw [if_neg hov] at hc
      exact ih _ _ _ hcsv c hc

/-- No space character survives the cell escaping. -/
theorem space_not_mem_escapeCell (raw : List Char) : ' ' ∉ escapeCell raw := by
  intro hmem
  simp only [escapeCell, doubleQuotes] at hmem
  rw [List.mem_flatten] at hmem
  obtain ⟨l, hl, hcl⟩ := hmem
  obtain ⟨c0, hc0, rfl⟩ := List.mem_map.mp hl
  by_cases h : c0 = '"'
  · rw [if_pos h] at hcl
    simp at hcl
  · rw [if_neg h] at hcl
    rw [List.mem_singleton] at hcl
    have := List.of_mem_filter hc0
    rw [← hcl] at this
    simp at this

/-- Membership in an intercalation comes from the separator or a part. -/
theorem mem_intercalate (c : Char) (sep : List Char) :
    ∀ L : List (List Char), c ∈ List.intercalate sep L → c ∈ sep ∨ ∃ l ∈ L, c ∈ l := by
  intro L
  induction L with
  | nil => intro h; rw [ic_nil] at h; cases h
  | cons a t ih =>
    intro h
    cases t with
    | nil =>
      rw [ic_singleton] at h
      exact Or.inr ⟨a, List.mem_singleton_self a, h⟩
    | cons b t' =>
      rw [ic_cons2] at h
      rcases List.mem_append.mp h with h1 | h1
      · rcases List.mem_append.mp h1 with h2 | h2
        · exact Or.inr ⟨a, List.mem_cons_self a _, h2⟩
        · exact Or.inl h2
      · rcases ih h1 with h2 | ⟨l, hl, hcl⟩
        · exact Or.inl h2
        · exact Or.inr ⟨l, List.mem_cons_of_mem a hl, hcl⟩

/-- Claim C10 (confirmed): for every input — the empty list included — the
string `convert_to_csv` returns starts with a double quote, ends with a
double quote, and contains no space character anywhere: every cell has had
its spaces removed, and the wrapping adds only quotes and commas. -/
theorem output_shape_invariant (data : List Node) (limit : Nat) :
    (convert_to_csv data limit).data.head? = some '"' ∧
    (convert_to_csv data limit).data.getLast? = some '"' ∧
    ' ' ∉ (convert_to_csv data limit).data := by
  have hdata : (convert_to_csv data limit).data
      = '"' :: List.intercalate ['"', ',', '"'] (csvCells data limit) ++ ['"'] := rfl
  refine ⟨by rw [hdata]; rfl, ?_, ?_⟩
  · rw [hdata]
    rw [show ('"' :: List.intercalate ['"', ',', '"'] (csvCells data limit) ++ ['"'])
        = ('"' :: List.intercalate ['"', ',', '"'] (csvCells data limit)) ++ ['"'] by simp]
    exact List.getLast?_concat _
  · rw [hdata]
    intro hmem
    rcases List.mem_cons.mp hmem with h | h
    · cases h
    · rcases List.mem_append.mp h with h | h
      · rcases mem_intercalate _ _ _ h with h1 | ⟨l, hl, hcl⟩
        · simp at h1
        · obtain ⟨raw, rfl⟩ :=
            convertLoop_cells_escaped limit data [] [] 0 (by simp) l hl
          exact space_not_mem_escapeCell raw hcl
      · simp at h

/-! ### Theorems about the API-key format check -/

/-- Characterization of `matchRun`: it succeeds exactly on a prefix of `n`
characters of the class, returning the rest. -/
theorem matchRun_eq_some (p : Char → Bool) (n : Nat) :
    ∀ cs r : List Char, matchRun p n cs = some r ↔
      ∃ g, cs = g ++ r ∧ g.length = n ∧ ∀ c ∈ g, p c = true := by
  induction n with
  | zero =>
    intro cs r
    constructor
    · intro h
      refine ⟨[], ?_, rfl, by simp⟩
      simpa [matchRun] using h
    · rintro ⟨g, hcs, hlen, -⟩
      obtain rfl : g = [] := List.length_eq_zero.mp hlen
      simp [matchRun]
      simpa using hcs
  | succ n ih =>
    intro cs r
    cases cs with
    | nil =>
      simp only [matchRun]
      constructor
      · intro h; cases h
      · rintro ⟨g, hcs, hlen, -⟩
        cases g with
        | nil => simp at hlen
        | cons a g' => simp at hcs
    | cons c cs' =>
      simp only [matchRun]
      by_cases hp : p c
      · rw [if_pos hp, ih]
        constructor
        · rintro ⟨g, hcs, hlen, hall⟩
          refine ⟨c :: g, by simp [hcs], by simp [hlen], ?_⟩
          intro x hx
          rcases List.mem_cons.mp hx with rfl | hx
          · exact hp
          · exact hall x hx
        · rintro ⟨g, hcs, hlen, hall⟩
          cases g with
          | nil => simp at hlen
          | cons a g' =>
            injection hcs with h1 h2
            exact ⟨g', h2, by simpa using hlen, fun x hx => hall x (List.mem_cons_of_mem _ hx)⟩
      · rw [if_neg hp]
        constructor
        · intro h; cases h
        · rintro ⟨g, hcs, hlen, hall⟩
          cases g with
          | nil => simp at hlen
          | cons a g' =>
            injection hcs with h1 h2
            exact (hp (by rw [h1]; exact hall a (List.mem_cons_self a g'))).elim

/-- Characterization of `matchChar`. -/
theorem matchChar_eq_some (a : Char) (cs r : List Char) :
    matchChar a cs = some r ↔ cs = a :: r := by
  cases cs with
  | nil => simp [matchChar]
  | cons c cs' =>
    simp only [matchChar]
    by_cases h : c = a
    · subst h; simp
    · simp [h, List.cons.injEq, Ne.symm h]

/-- Characterization of the whole anchored pattern body. -/
theorem apikeyTail_eq_some (cs r : List Char) :
    apikeyTail cs = some r ↔
      ∃ a b c d e : List Char,
        hexGroup 8 a ∧ hexGroup 4 b ∧ hexGroup 4 c ∧ hexGroup 4 d ∧ hexGroup 12 e ∧
        cs = a ++ '-' :: (b ++ '-' :: (c ++ '-' :: (d ++ '-' :: (e ++ r)))) := by
  constructor
  · intro h
    unfold apikeyTail at h
    obtain ⟨x8, hc8, hmr12⟩ := Option.bind_eq_some'.mp h
    obtain ⟨x7, hc7, hmc4⟩ := Option.bind_eq_some'.mp hc8
    obtain ⟨x6, hc6, hmr4c⟩ := Option.bind_eq_some'.mp hc7
    obtain ⟨x5, hc5, hmc3⟩ := Option.bind_eq_some'.mp hc6
    obtain ⟨x4, hc4, hmr4b⟩ := Option.bind_eq_some'.mp hc5
    obtain ⟨x3, hc3, hmc2⟩ := Option.bind_eq_some'.mp hc4
    obtain ⟨x2, hc2, hmr4a⟩ := Option.bind_eq_some'.mp hc3
    obtain ⟨x1, hc1, hmc1⟩ := Option.bind_eq_some'.mp hc2
    obtain ⟨a, rfl, hal, hah⟩ := (matchRun_eq_some _ _ _ _).mp hc1
    obtain rfl := (matchChar_eq_some _ _ _).mp hmc1
    obtain ⟨b, rfl, hbl, hbh⟩ := (matchRun_eq_some _ _ _ _).mp hmr4a
    obtain rfl := (matchChar_eq_some _ _ _).mp hmc2
    obtain ⟨c, rfl, hcl, hch⟩ := (matchRun_eq_some _ _ _ _).mp hmr4b
    obtain rfl := (matchChar_eq_some _ _ _).mp hmc3
    obtain ⟨d, rfl, hdl, hdh⟩ := (matchRun_eq_some _ _ _ _).mp hmr4c
    obtain rfl := (matchChar_eq_some _ _ _).mp hmc4
    obtain ⟨e, rfl, hel, heh⟩ := (matchRun_eq_some _ _ _ _).mp hmr12
    exact ⟨a, b, c, d, e, ⟨hal, hah⟩, ⟨hbl, hbh⟩, ⟨hcl, hch⟩, ⟨hdl, hdh⟩, ⟨hel, heh⟩, rfl⟩
  · rintro ⟨a, b, c, d, e, ⟨hal, hah⟩, ⟨hbl, hbh⟩, ⟨hcl, hch⟩, ⟨hdl, hdh⟩, ⟨hel, heh⟩, rfl⟩
    unfold apikeyTail
    refine Option.bind_eq_some'.mpr ⟨e ++ r, ?_, (matchRun_eq_some _ _ _ _).mpr ⟨e, rfl, hel, heh⟩⟩
    refine Option.bind_eq_some'.mpr ⟨'-' :: (e ++ r), ?_, (matchChar_eq_some _ _ _).mpr rfl⟩
    refine Option.bind_eq_some'.mpr ⟨d ++ '-' :: (e ++ r), ?_, (matchRun_eq_some _ _ _ _).mpr ⟨d, rfl, hdl, hdh⟩⟩
    refine Option.bind_eq_some'.mpr ⟨'-' :: (d ++ '-' :: (e ++ r)), ?_, (matchChar_eq_some _ _ _).mpr rfl⟩
    refine Option.bind_eq_some'.mpr ⟨c ++ '-' :: (d ++ '-' :: (e ++ r)), ?_, (matchRun_eq_some _ _ _ _).mpr ⟨c, rfl, hcl, hch⟩⟩
    refine Option.bind_eq_some'.mpr ⟨'-' :: (c ++ '-' :: (d ++ '-' :: (e ++ r))), ?_, (matchChar_eq_some _ _ _).mpr rfl⟩
    refine Option.bind_eq_some'.mpr ⟨b ++ '-' :: (c ++ '-' :: (d ++ '-' :: (e ++ r))), ?_, (matchRun_eq_some _ _ _ _).mpr ⟨b, rfl, hbl, hbh⟩⟩
    refine Option.bind_eq_some'.mpr ⟨'-' :: (b ++ '-' :: (c ++ '-' :: (d ++ '-' :: (e ++ r)))), ?_, (matchChar_eq_some _ _ _).mpr rfl⟩
    exact (matchRun_eq_some _ _ _ _).mpr ⟨a, rfl, hal, hah⟩

/-- A token of the valid shape followed by anything makes the pattern body
match exactly that token. -/
theorem apikeyTail_of_uuidShape (t r : List Char) (h : uuidShape t) :
    apikeyTail (t ++ r) = some r := by
  obtain ⟨a, b, c, d, e, ha, hb, hc, hd, he, rfl⟩ := h
  exact (apikeyTail_eq_some _ _).mpr
    ⟨a, b, c, d, e, ha, hb, hc, hd, he, by simp [List.append_assoc]⟩

/-- Conversely, a successful pattern-body match splits the input into a
valid-shape token and the rest. -/
theorem uuidShape_of_apikeyTail (cs r : List Char) (h : apikeyTail cs = some r) :
    ∃ t, cs = t ++ r ∧ uuidShape t := by
  obtain ⟨a, b, c, d, e, ha, hb, hc, hd, he, rfl⟩ := (apikeyTail_eq_some _ _).mp h
  exact ⟨a ++ '-' :: b ++ '-' :: c ++ '-' :: d ++ '-' :: e,
    by simp [List.append_assoc], ⟨a, b, c, d, e, ha, hb, hc, hd, he, rfl⟩⟩

/-- Claim C9 counterexample: a 37-character string — a valid 36-character
token followed by one newline — is accepted, because Python's `$` also
matches just before a final newline; so strings of another length are
accepted, contrary to the claim. -/
theorem api_key_counterexample :
    has_valid_api_key_format "00000000-0000-0000-0000-000000000000\n" = true ∧
    ("00000000-0000-0000-0000-000000000000\n" : String).length = 37 :=
  ⟨by decide, by decide⟩

/-- Claim C9 as amended: `has_valid_api_key_format` returns `True` iff its
input is exactly a 36-character hyphenated hexadecimal token of shape
8-4-4-4-12, or such a token followed by a single trailing newline (accepted
because Python's `$` outside MULTILINE mode also matches just before a final
newline); no other string is accepted. -/
theorem api_key_amended (s : String) :
    has_valid_api_key_format s = true ↔
      uuidShape s.data ∨ ∃ t, s.data = t ++ ['\n'] ∧ uuidShape t := by
  unfold has_valid_api_key_format
  constructor
  · intro hv
    cases h : apikeyTail s.data with
    | none => rw [h] at hv; cases hv
    | some rest =>
      rw [h] at hv
      have hd : rest = [] ∨ rest = ['\n'] := by simpa [dollarMatches] using hv
      obtain ⟨t, hts, hu⟩ := uuidShape_of_apikeyTail _ _ h
      rcases hd with rfl | rfl
      · left; rw [List.append_nil] at hts; rwa [hts]
      · right; exact ⟨t, hts, hu⟩
  · rintro (hu | ⟨t, hts, hu⟩)
    · have h1 : apikeyTail (s.data ++ []) = some [] := apikeyTail_of_uuidShape _ _ hu
      rw [List.append_nil] at h1
      rw [h1]
      simp [dollarMatches]
    · have h1 : apikeyTail (t ++ ['\n']) = some ['\n'] := apikeyTail_of_uuidShape _ _ hu
      rw [hts, h1]
      simp [dollarMatches]

/-! ### Round-trip of the cell escaping -/

theorem doubleQuotes_cons (c : Char) (t : List Char) :
    doubleQuotes (c :: t) = (if c = '"' then ['"', '"'] else [c]) ++ doubleQuotes t := by
  simp [doubleQuotes]

theorem halveQuotes_doubleQuotes (s : List Char) : halveQuotes (doubleQuotes s) = s := by
  induction s with
  | nil => rfl
  | cons c t ih =>
    rw [doubleQuotes_cons]
    by_cases h : c = '"'
    · subst h
      rw [if_pos rfl, List.cons_append, List.cons_append, List.nil_append]
      rw [show halveQuotes ('"' :: '"' :: doubleQuotes t)
            = '"' :: halveQuotes (doubleQuotes t) by simp [halveQuotes], ih]
    · rw [if_neg h, List.cons_append, List.nil_append]
      cases ht : doubleQuotes t with
      | nil =>
        rw [ht] at ih
        rw [show halveQuotes [c] = [c] from rfl, ← ih]
        rfl
      | cons c2 r =>
        rw [ht] at ih
        rw [show halveQuotes (c :: c2 :: r) = c :: halveQuotes (c2 :: r) by
            simp [halveQuotes, h], ih]

theorem removeSpaces_append (a b : List Char) :
    removeSpaces (a ++ b) = removeSpaces a ++ removeSpaces b :=
  List.filter_append a b

theorem removeSpaces_intercalate (sep : List Char) (L : List (List Char)) :
    removeSpaces (List.intercalate sep L)
      = List.intercalate (removeSpaces sep) (L.map removeSpaces) := by
  induction L with
  | nil => rfl
  | cons a t ih =>
    cases t with
    | nil => simp [ic_singleton]
    | cons b t' =>
      simp only [List.map_cons] at ih ⊢
      rw [ic_cons2, removeSpaces_append, removeSpaces_append, ih, ic_cons2]

/-! ### The top-level splitter and scan-safe strings -/

theorem scanChars_append (a : List Char) :
    ∀ (b : List Char) (st : ScanSt),
      scanChars st (a ++ b) = (scanChars st a).bind (fun st2 => scanChars st2 b) := by
  induction a with
  | nil => intro b st; rfl
  | cons c t ih =>
    intro b st
    rw [List.cons_append]
    cases h : scanStep st c with
    | none => simp [scanChars, h]
    | some st2 => simp [scanChars, h, ih b st2]

theorem splitGo_pass (s : List Char) :
    ∀ (st st' : ScanSt) (cur : List Char) (acc : List (List Char)) (rest : List Char),
      scanChars st s = some st' →
      splitGo st cur acc (s ++ rest) = splitGo st' (cur ++ s) acc rest := by
  induction s with
  | nil =>
    intro st st' cur acc rest h
    obtain rfl : st = st' := Option.some.inj h
    simp
  | cons c t ih =>
    intro st st' cur acc rest h
    rw [List.cons_append]
    simp only [scanChars] at h
    cases hs : scanStep st c with
    | none => rw [hs] at h; cases h
    | some st2 =>
      rw [hs] at h
      simp only [splitGo, hs]
      rw [ih st2 st' (cur ++ [c]) acc rest h]
      simp

theorem scanStep_neutral_comma : scanStep neutralSt ',' = none := rfl

/-- Splitting a comma-join of scan-safe parts recovers exactly the parts. -/
theorem splitGo_intercalate :
    ∀ (ss : List (List Char)) (acc : List (List Char)),
      ss ≠ [] → (∀ s ∈ ss, scanChars neutralSt s = some neutralSt) →
      splitGo neutralSt [] acc (List.intercalate [','] ss) = acc ++ ss := by
  intro ss
  induction ss with
  | nil => intro acc h; exact absurd rfl h
  | cons s t ih =>
    intro acc _ hall
    cases t with
    | nil =>
      rw [ic_singleton]
      have h2 := splitGo_pass s neutralSt neutralSt [] acc []
        (hall s (List.mem_singleton_self s))
      simp only [List.append_nil, List.nil_append] at h2
      rw [h2]
      rfl
    | cons s2 t' =>
      rw [ic_cons2]
      have h2 := splitGo_pass s neutralSt neutralSt [] acc
        (',' :: List.intercalate [','] (s2 :: t')) (hall s (List.mem_cons_self s _))
      rw [show s ++ [','] ++ List.intercalate [','] (s2 :: t')
          = s ++ (',' :: List.intercalate [','] (s2 :: t')) by simp, h2]
      simp only [List.nil_append]
      rw [show splitGo neutralSt s acc (',' :: List.intercalate [','] (s2 :: t'))
            = splitGo neutralSt [] (acc ++ [s]) (List.intercalate [','] (s2 :: t')) by
          simp [splitGo, scanStep_neutral_comma]]
      rw [ih (acc ++ [s]) (List.cons_ne_nil s2 t')
        (fun x hx => hall x (List.mem_cons_of_mem s hx))]
      simp

theorem hexChar_mem (n : Nat) : hexChar n ∈ hexDigits := by
  unfold hexChar
  split
  · exact List.get_mem _ _ _
  · decide

theorem hexChar_ne_quote (n : Nat) : hexChar n ≠ '"' := by
  intro h
  have hm := hexChar_mem n
  rw [h] at hm
  revert hm
  decide

theorem hexChar_ne_backslash (n : Nat) : hexChar n ≠ '\\' := by
  intro h
  have hm := hexChar_mem n
  rw [h] at hm
  revert hm
  decide

/-- Inside a string literal, any character other than a backslash or a quote
leaves the scanner state unchanged. -/
theorem scanStep_inStr (d : Nat) (c : Char) (h1 : c ≠ '\\') (h2 : c ≠ '"') :
    scanStep ⟨d, true, false⟩ c = some ⟨d, true, false⟩ := by
  simp [scanStep, h1, h2]

/-- A backslash escape consumes the following character, whatever it is. -/
theorem scanChars_escape_pair (d : Nat) (x : Char) :
    scanChars ⟨d, true, false⟩ ['\\', x] = some ⟨d, true, false⟩ := by
  simp [scanChars, scanStep]

/-- A run of in-string-safe characters passes through the scanner. -/
theorem scanChars_inStr_run (d : Nat) (hs : List Char)
    (hh : ∀ c ∈ hs, c ≠ '\\' ∧ c ≠ '"') :
    scanChars ⟨d, true, false⟩ hs = some ⟨d, true, false⟩ := by
  induction hs with
  | nil => rfl
  | cons c t ih =>
    have hc := hh c (List.mem_cons_self c t)
    simp only [scanChars, scanStep_inStr d c hc.1 hc.2]
    exact ih (fun x hx => hh x (List.mem_cons_of_mem c hx))

/-- A `\uXXXX` escape — with its spaces removed, though it contains none —
passes through the scanner inside a string literal. -/
theorem scanChars_uEscape (d : Nat) (n : Nat) :
    scanChars ⟨d, true, false⟩ (removeSpaces ('\\' :: 'u' :: hex4 n)) = some ⟨d, true, false⟩ := by
  have hd : removeSpaces ('\\' :: 'u' :: hex4 n) = '\\' :: 'u' :: removeSpaces (hex4 n) := by
    simp [removeSpaces, List.filter_cons]
  rw [hd, show ('\\' :: 'u' :: removeSpaces (hex4 n)) = ['\\', 'u'] ++ removeSpaces (hex4 n)
      from rfl]
  rw [scanChars_append, scanChars_escape_pair]
  exact scanChars_inStr_run d _ (by
    intro c hc
    have hc2 := List.mem_of_mem_filter hc
    simp only [hex4, List.mem_cons, List.not_mem_nil, or_false] at hc2
    rcases hc2 with rfl | rfl | rfl | rfl <;>
      exact ⟨hexChar_ne_backslash _, hexChar_ne_quote _⟩)

/-- Each character's escaped form, with spaces removed, passes through the
scanner inside a string literal. -/
theorem scanChars_escChar (d : Nat) (c : Char) :
    scanChars ⟨d, true, false⟩ (removeSpaces (escChar c)) = some ⟨d, true, false⟩ := by
  unfold escChar
  split_ifs with h1 h2 h3 h4 h5 h6 h7 h8 h9
  · exact scanChars_escape_pair d '"'
  · exact scanChars_escape_pair d '\\'
  · exact scanChars_escape_pair d 'n'
  · exact scanChars_escape_pair d 't'
  · exact scanChars_escape_pair d 'r'
  · exact scanChars_escape_pair d 'b'
  · exact scanChars_escape_pair d 'f'
  · exact scanChars_uEscape d c.toNat
  · rw [removeSpaces_append, scanChars_append, scanChars_uEscape, Option.some_bind]
    exact scanChars_uEscape d _
  · by_cases hsp : c = ' '
    · subst hsp; rfl
    · rw [show removeSpaces [c] = [c] by simp [removeSpaces, List.filter_cons, hsp]]
      simp only [scanChars, scanStep_inStr d c h2 h1]

/-- A whole escaped string-literal body, with spaces removed, passes through
the scanner inside a string literal. -/
theorem scanChars_escStr (d : Nat) (v : String) :
    scanChars ⟨d, true, false⟩ (removeSpaces (escStr v)) = some ⟨d, true, false⟩ := by
  unfold escStr
  induction v.data with
  | nil => rfl
  | cons c t ih =>
    rw [List.map_cons, List.flatten_cons, removeSpaces_append, scanChars_append,
      scanChars_escChar]
    exact ih

theorem scanStep_quote_open (d : Nat) : scanStep ⟨d, false, false⟩ '"' = some ⟨d, true, false⟩ := by
  simp [scanStep]

theorem scanStep_quote_close (d : Nat) : scanStep ⟨d, true, false⟩ '"' = some ⟨d, false, false⟩ := by
  simp [scanStep]

theorem scanStep_colon (d : Nat) : scanStep ⟨d, false, false⟩ ':' = some ⟨d, false, false⟩ := by
  simp [scanStep]

theorem scanStep_comma_depth1 : scanStep ⟨1, false, false⟩ ',' = some ⟨1, false, false⟩ := rfl

/-- A comma-join of parts that each pass through the scanner passes through,
provided a comma does at the current state. -/
theorem scanChars_ic_comma (st : ScanSt) (hcomma : scanStep st ',' = some st) :
    ∀ L : List (List Char), (∀ l ∈ L, scanChars st l = some st) →
      scanChars st (List.intercalate [','] L) = some st := by
  intro L
  induction L with
  | nil => intro _; rfl
  | cons a t ih =>
    intro hall
    cases t with
    | nil =>
      rw [ic_singleton]
      exact hall a (List.mem_singleton_self a)
    | cons b t' =>
      rw [ic_cons2, List.append_assoc, scanChars_append, hall a (List.mem_cons_self a _)]
      rw [show ([','] ++ List.intercalate [','] (b :: t'))
          = ',' :: List.intercalate [','] (b :: t') from rfl]
      simp only [Option.some_bind, scanChars, hcomma]
      exact ih (fun l hl => hall l (List.mem_cons_of_mem a hl))

/-- One serialized `"key": "value"` member, with spaces removed, passes
through the scanner at brace depth one. -/
theorem scanChars_dumpPair (p : String × String) :
    scanChars ⟨1, false, false⟩ (removeSpaces (dumpPair p)) = some ⟨1, false, false⟩ := by
  have hd : removeSpaces (dumpPair p)
      = '"' :: (removeSpaces (escStr p.1)
          ++ ('"' :: ':' :: '"' :: (removeSpaces (escStr p.2) ++ ['"']))) := by
    simp [dumpPair, removeSpaces, List.filter_append, List.filter_cons]
  rw [hd]
  simp only [scanChars, scanStep_quote_open]
  rw [scanChars_append, scanChars_escStr]
  simp only [Option.some_bind, scanChars, scanStep_quote_close, scanStep_colon,
    scanStep_quote_open]
  rw [scanChars_append, scanChars_escStr]
  simp only [Option.some_bind, scanChars, scanStep_quote_close]

/-- A whole serialized record, with spaces removed, passes through the
scanner from the neutral state back to the neutral state, meeting no
top-level comma on the way. -/
theorem scanChars_record (r : Node) :
    scanChars neutralSt (removeSpaces (dumpsL r)) = some neutralSt := by
  have hd : removeSpaces (dumpsL r)
      = '{' :: (List.intercalate [','] ((r.map dumpPair).map removeSpaces) ++ ['}']) := by
    rw [show dumpsL r = '{' :: (List.intercalate [',', ' '] (r.map dumpPair) ++ ['}'])
        from rfl]
    rw [show removeSpaces ('{' :: (List.intercalate [',', ' '] (r.map dumpPair) ++ ['}']))
        = '{' :: (removeSpaces (List.intercalate [',', ' '] (r.map dumpPair)) ++ ['}']) by
      simp [removeSpaces, List.filter_cons, List.filter_append]]
    rw [removeSpaces_intercalate]
    rfl
  rw [hd]
  rw [show scanChars neutralSt
        ('{' :: (List.intercalate [','] ((r.map dumpPair).map removeSpaces) ++ ['}']))
      = scanChars ⟨1, false, false⟩
          (List.intercalate [','] ((r.map dumpPair).map removeSpaces) ++ ['}']) by
    simp [scanChars, scanStep, neutralSt]]
  rw [scanChars_append]
  rw [scanChars_ic_comma ⟨1, false, false⟩ scanStep_comma_depth1 _ (by
    intro l hl
    obtain ⟨l2, hl2, rfl⟩ := List.mem_map.mp hl
    obtain ⟨p, hp, rfl⟩ := List.mem_map.mp hl2
    exact scanChars_dumpPair p)]
  rfl

/-! ### Flattening the groups back into the record sequence -/

/-- The groups of the packing fold partition the input: flattening them
recovers every serialized record, in order. -/
theorem packGroups_flatten (limit : Nat) :
    ∀ (ns : List (List Char)) (gs : List (List (List Char))) (g : List (List Char)) (len : Nat),
      (packGroups limit ns gs g len).flatten = gs.flatten ++ g ++ ns := by
  intro ns
  induction ns with
  | nil =>
    intro gs g len
    simp only [packGroups]
    by_cases hg : g = []
    · subst hg; simp
    · rw [if_neg hg]
      simp
  | cons s rest ih =>
    intro gs g len
    simp only [packGroups]
    by_cases hov : limit < len + s.length
    · rw [if_pos hov, ih]
      simp
    · rw [if_neg hov, ih]
      simp

/-- With the accumulators free of empty groups, the packing fold emits no
empty group. -/
theorem packGroups_ne_nil (limit : Nat) :
    ∀ (ns : List (List Char)) (gs : List (List (List Char))) (g : List (List Char)) (len : Nat),
      (∀ h ∈ gs, h ≠ []) → g ≠ [] →
      ∀ h ∈ packGroups limit ns gs g len, h ≠ [] := by
  intro ns
  induction ns with
  | nil =>
    intro gs g len hgs hg h hh
    simp only [packGroups] at hh
    rw [if_neg hg] at hh
    rcases List.mem_append.mp hh with hh | hh
    · exact hgs h hh
    · rw [List.mem_singleton] at hh; subst hh; exact hg
  | cons s rest ih =>
    intro gs g len hgs hg h hh
    simp only [packGroups] at hh
    by_cases hov : limit < len + s.length
    · rw [if_pos hov] at hh
      refine ih _ _ _ ?_ (List.cons_ne_nil s []) h hh
      intro h2 hh2
      rcases List.mem_append.mp hh2 with hh2 | hh2
      · exact hgs h2 hh2
      · rw [List.mem_singleton] at hh2; subst hh2; exact hg
    · rw [if_neg hov] at hh
      refine ih _ _ _ hgs ?_ h hh
      intro hcon
      exact absurd (List.append_eq_nil.mp hcon).2 (List.cons_ne_nil s [])

/-- When the first record fits within the limit, no cell group is empty. -/
theorem groupsOf_ne_nil (d0 : Node) (dr : List Node) (limit : Nat)
    (hfit : (dumpsL d0).length ≤ limit) :
    ∀ h ∈ groupsOf (d0 :: dr) limit, h ≠ [] := by
  intro h hh
  unfold groupsOf at hh
  rw [List.map_cons] at hh
  simp only [packGroups] at hh
  rw [if_neg (by omega)] at hh
  exact packGroups_ne_nil limit _ _ _ _ (by simp) (by simp) h hh

/-- The groups of `convert_to_csv` flatten to the serialized records. -/
theorem groupsOf_flatten (data : List Node) (limit : Nat) :
    (groupsOf data limit).flatten = data.map dumpsL := by
  unfold groupsOf
  rw [packGroups_flatten]
  simp

/-- Joining non-empty parts distributes over list append. -/
theorem ic_append_ne (a b : List (List Char)) (ha : a ≠ []) (hb : b ≠ []) :
    List.intercalate [','] (a ++ b)
      = List.intercalate [','] a ++ ',' :: List.intercalate [','] b := by
  induction a with
  | nil => exact absurd rfl ha
  | cons x t ih =>
    cases t with
    | nil =>
      cases b with
      | nil => exact absurd rfl hb
      | cons y tb =>
        rw [List.cons_append, List.nil_append, ic_cons2, ic_singleton]
        simp
    | cons x2 t' =>
      rw [List.cons_append, ic_cons2]
      rw [show (x2 :: t') ++ b = x2 :: (t' ++ b) from rfl] at *
      rw [show List.intercalate [','] (x :: x2 :: (t' ++ b))
          = x ++ [','] ++ List.intercalate [','] (x2 :: (t' ++ b)) from ic_cons2 _ _ _ _]
      rw [ih (List.cons_ne_nil x2 t')]
      simp [List.append_assoc]

/-- Joining the joins of non-empty groups equals joining the flattened
parts. -/
theorem ic_flatten (L : List (List (List Char))) (hne : ∀ h ∈ L, h ≠ []) :
    List.intercalate [','] (L.map (List.intercalate [',']))
      = List.intercalate [','] L.flatten := by
  induction L with
  | nil => rfl
  | cons h t ih =>
    cases t with
    | nil => simp [ic_singleton]
    | cons h2 t' =>
      have ih2 := ih (fun x hx => hne x (List.mem_cons_of_mem h hx))
      simp only [List.map_cons] at ih2 ⊢
      rw [ic_cons2, ih2]
      rw [show ((h :: h2 :: t').flatten : List (List Char)) = h ++ (h2 :: t').flatten from rfl,
        ic_append_ne h (h2 :: t').flatten (hne h (List.mem_cons_self h _))
          (by
            rw [List.flatten_cons]
            intro hcon
            exact absurd (List.append_eq_nil.mp hcon).1 (hne h2 (by simp)))]
      simp

/-- Claim C8 counterexample: with `length_limit = 2` and two records `{}`,
the two cells hold one record each; concatenating the de-escaped cell
contents (with no separator between cells, as the claim states) glues the
two records together, and top-level splitting cannot recover them. -/
theorem order_preservation_counterexample :
    splitTopLevel (((csvCells [[], []] 2).map halveQuotes).flatten)
      ≠ ([[], []] : List Node).map (fun r => removeSpaces (dumpsL r)) := by
  decide

/-- Claim C8 as amended: joining the de-escaped (quote-halved) contents of
all cells with `,` — the bare concatenation of the claim loses the record
boundary at every cell break — and splitting on commas at top level (outside
braces and string literals) reconstructs the space-stripped serialized forms
of the original records, in original order, whenever the input is non-empty
and the first record's serialized form fits within `length_limit` (otherwise
the leading empty cell contributes a spurious empty token). -/
theorem order_preservation_amended (d0 : Node) (dr : List Node) (limit : Nat)
    (hfit : (dumpsL d0).length ≤ limit) :
    splitTopLevel (List.intercalate [','] ((csvCells (d0 :: dr) limit).map halveQuotes))
      = (d0 :: dr).map (fun r => removeSpaces (dumpsL r)) := by
  rw [csvCells_eq, List.map_map]
  rw [show (halveQuotes ∘ fun h => escapeCell (List.intercalate [','] h))
      = fun g => List.intercalate [','] (List.map removeSpaces g) by
    funext g
    show halveQuotes (escapeCell (List.intercalate [','] g)) = _
    rw [show escapeCell (List.intercalate [','] g)
        = doubleQuotes (removeSpaces (List.intercalate [','] g)) from rfl,
      halveQuotes_doubleQuotes, removeSpaces_intercalate]
    rfl]
  rw [show (fun g => List.intercalate [','] (List.map removeSpaces g))
      = (List.intercalate [','] ∘ List.map removeSpaces) from rfl,
    ← List.map_map]
  rw [ic_flatten _ (by
    intro h hh
    obtain ⟨h0, hh0, rfl⟩ := List.mem_map.mp hh
    rw [Ne, List.map_eq_nil_iff]
    exact groupsOf_ne_nil d0 dr limit hfit h0 hh0)]
  rw [← List.map_flatten, groupsOf_flatten, List.map_map]
  unfold splitTopLevel
  rw [splitGo_intercalate _ [] (by simp) (by
    intro s hs
    obtain ⟨r, hr, rfl⟩ := List.mem_map.mp hs
    exact scanChars_record r)]
  simp

/-- Witness for `order_preservation_amended` on a two-record input split
into two cells (limit 2, records of serialized length 2 each). -/
theorem order_preservation_amended_witness :
    splitTopLevel (List.intercalate [','] ((csvCells [[], []] 2).map halveQuotes))
      = ([[], []] : List Node).map (fun r => removeSpaces (dumpsL r)) :=
  order_preservation_amended [] [[]] 2 (by decide)

end Omnivore
